import Mathlib

set_option maxRecDepth 10000

/-!
Verification of the TSS2 key codec of this repository.

The repository's `tss2` package converts between a DER-encoded ASN.1
structure representing a TPM-wrapped private key and an in-memory record
(`TPMKey`, `TPMPolicy`, `TPMAuthPolicy`), and back.  The codec functions
`ParsePrivateKey` and `MarshalPrivateKey` are modelled here over byte lists
(`List Nat`, each element a byte value), following the specification's
description of the wire format and validated against the package's test
vectors (exact encodings and PEM fixtures from the test file).
-/

namespace TSS2

/-! ## Base-256 digits -/

/-- Fuel-indexed helper for `base256`; the fuel only bounds the recursion
depth, which the value of the first argument always covers. -/
def base256Aux : Nat → Nat → List Nat
  | 0, _ => []
  | fuel + 1, n => if n = 0 then [] else base256Aux fuel (n / 256) ++ [n % 256]

/-- Minimal big-endian base-256 digits of a natural number (empty for 0). -/
def base256 (n : Nat) : List Nat := base256Aux n n

theorem base256Aux_irrel : ∀ f1 n, n ≤ f1 → ∀ f2, n ≤ f2 →
    base256Aux f1 n = base256Aux f2 n := by
  intro f1
  induction f1 with
  | zero =>
    intro n hn f2 _
    have hn0 : n = 0 := by omega
    subst hn0
    cases f2 with
    | zero => rfl
    | succ f2a => simp [base256Aux]
  | succ f1a ih =>
    intro n hn f2 hn2
    by_cases h0 : n = 0
    · subst h0
      cases f2 with
      | zero => simp [base256Aux]
      | succ f2a => simp [base256Aux]
    · cases f2 with
      | zero => omega
      | succ f2a =>
        simp only [base256Aux, if_neg h0]
        have hlt : n / 256 < n := Nat.div_lt_self (Nat.pos_of_ne_zero h0) (by norm_num)
        rw [ih (n / 256) (by omega) f2a (by omega)]

theorem base256_eq (n : Nat) :
    base256 n = if n = 0 then [] else base256 (n / 256) ++ [n % 256] := by
  by_cases h0 : n = 0
  · subst h0
    simp [base256, base256Aux]
  · rw [if_neg h0]
    obtain ⟨m, rfl⟩ : ∃ m, n = m + 1 := ⟨n - 1, by omega⟩
    have hlt : (m + 1) / 256 < m + 1 := Nat.div_lt_self (by omega) (by norm_num)
    show base256Aux (m + 1) (m + 1) = base256 ((m + 1) / 256) ++ [(m + 1) % 256]
    simp only [base256Aux, if_neg h0, base256]
    rw [base256Aux_irrel m ((m + 1) / 256) (by omega) ((m + 1) / 256) (le_refl _)]

/-- Numeric value of big-endian base-256 digits. -/
def fromBase256 (l : List Nat) : Nat :=
  l.foldl (fun a b => a * 256 + b) 0

theorem fromBase256_nil : fromBase256 [] = 0 := rfl

theorem fromBase256_foldl (l : List Nat) (a : Nat) :
    l.foldl (fun a b => a * 256 + b) a = a * 256 ^ l.length + fromBase256 l := by
  induction l generalizing a with
  | nil => simp [fromBase256]
  | cons x xs ih =>
    simp only [List.foldl_cons, List.length_cons, fromBase256, Nat.zero_mul, Nat.zero_add]
    rw [ih (a * 256 + x), ih x]
    ring

theorem fromBase256_append (l₁ l₂ : List Nat) :
    fromBase256 (l₁ ++ l₂) = fromBase256 l₁ * 256 ^ l₂.length + fromBase256 l₂ := by
  simp only [fromBase256, List.foldl_append]
  rw [fromBase256_foldl l₂ (List.foldl (fun a b => a * 256 + b) 0 l₁)]
  rfl

theorem fromBase256_base256 (n : Nat) : fromBase256 (base256 n) = n := by
  induction n using Nat.strong_induction_on with
  | _ n ih =>
    rw [base256_eq]
    by_cases h : n = 0
    · simp [h, fromBase256]
    · rw [if_neg h, fromBase256_append]
      rw [ih (n / 256) (Nat.div_lt_self (Nat.pos_of_ne_zero h) (by norm_num))]
      simp [fromBase256]
      omega

theorem base256_eq_nil_iff (n : Nat) : base256 n = [] ↔ n = 0 := by
  constructor
  · intro h
    by_contra hn
    rw [base256_eq, if_neg hn] at h
    simp at h
  · intro h; rw [h, base256_eq]; simp

theorem base256_lt (n : Nat) : ∀ b ∈ base256 n, b < 256 := by
  induction n using Nat.strong_induction_on with
  | _ n ih =>
    rw [base256_eq]
    by_cases h : n = 0
    · simp [h]
    · rw [if_neg h]
      intro b hb
      rcases List.mem_append.mp hb with h1 | h2
      · exact ih (n / 256) (Nat.div_lt_self (Nat.pos_of_ne_zero h) (by norm_num)) b h1
      · simp at h2
        omega

theorem base256_head_ne_zero (n : Nat) : ∀ h t, base256 n = h :: t → h ≠ 0 := by
  induction n using Nat.strong_induction_on with
  | _ n ih =>
    intro h t he
    by_cases hn : n = 0
    · rw [hn, base256_eq] at he; simp at he
    · rw [base256_eq, if_neg hn] at he
      rcases hq' : base256 (n / 256) with _ | ⟨h', t'⟩
      · have hq : n / 256 = 0 := (base256_eq_nil_iff _).mp hq'
        have hlt : n < 256 := by
          rcases Nat.lt_or_ge n 256 with h1 | h1
          · exact h1
          · have := Nat.div_le_div_right (c := 256) h1
            simp at this
            omega
        rw [hq'] at he
        simp at he
        omega
      · rw [hq'] at he
        simp at he
        exact he.1 ▸ ih (n / 256) (Nat.div_lt_self (Nat.pos_of_ne_zero hn) (by norm_num)) h' t' hq'

theorem fromBase256_single (x : Nat) : fromBase256 [x] = x := by
  simp [fromBase256]

theorem fromBase256_cons (d : Nat) (t : List Nat) :
    fromBase256 (d :: t) = d * 256 ^ t.length + fromBase256 t := by
  simp only [fromBase256, List.foldl_cons, Nat.zero_mul, Nat.zero_add]
  exact fromBase256_foldl t d

theorem base256_fromBase256_digits (d : Nat) (hd : d ≠ 0) :
    ∀ t : List Nat, (∀ x ∈ d :: t, x < 256) → base256 (fromBase256 (d :: t)) = d :: t := by
  intro t
  induction t using List.reverseRecOn with
  | nil =>
    intro hlt
    have hdlt : d < 256 := hlt d (by simp)
    rw [fromBase256_single, base256_eq, if_neg hd, Nat.div_eq_of_lt hdlt, Nat.mod_eq_of_lt hdlt,
      (base256_eq_nil_iff 0).mpr rfl]
    simp
  | append_singleton ts x ih =>
    intro hlt
    have hxlt : x < 256 := hlt x (by simp)
    have hcons : d :: (ts ++ [x]) = (d :: ts) ++ [x] := by simp
    rw [hcons, fromBase256_append, fromBase256_single]
    have ha : fromBase256 (d :: ts) ≠ 0 := by
      rw [fromBase256_cons]
      have h1 : 1 ≤ 256 ^ ts.length := Nat.one_le_pow _ _ (by norm_num)
      have h2 : 1 ≤ d := Nat.pos_of_ne_zero hd
      have h3 : 1 * 1 ≤ d * 256 ^ ts.length := Nat.mul_le_mul h2 h1
      omega
    simp only [List.length_singleton, pow_one]
    rw [base256_eq, if_neg (fun hc => ha (by omega))]
    have hdiv : (fromBase256 (d :: ts) * 256 + x) / 256 = fromBase256 (d :: ts) := by omega
    have hmod : (fromBase256 (d :: ts) * 256 + x) % 256 = x := by omega
    rw [hdiv, hmod]
    have hmem : ∀ y ∈ d :: ts, y < 256 := by
      intro y hy
      apply hlt
      simp only [List.mem_cons, List.mem_append] at hy ⊢
      tauto
    rw [ih hmem]

/-! ## DER length octets -/

/-- DER length octets: short form below 128, otherwise long form with a
minimal big-endian byte count. -/
def derLen (n : Nat) : List Nat :=
  if n < 128 then [n] else (128 + (base256 n).length) :: base256 n

/-- Parse DER length octets (strict DER: minimal long form only), returning
the length and the unconsumed input. -/
def parseLen : List Nat → Option (Nat × List Nat)
  | [] => none
  | b :: rest =>
    if b < 128 then some (b, rest)
    else if b - 128 = 0 then none
    else if rest.length < b - 128 then none
    else if (rest.take (b - 128)).headD 0 = 0 then none
    else if fromBase256 (rest.take (b - 128)) < 128 then none
    else some (fromBase256 (rest.take (b - 128)), rest.drop (b - 128))

theorem parseLen_derLen (n : Nat) (rest : List Nat) :
    parseLen (derLen n ++ rest) = some (n, rest) := by
  by_cases h : n < 128
  · simp [derLen, parseLen, h]
  · have hn : n ≠ 0 := by omega
    have hne : base256 n ≠ [] := fun he => hn ((base256_eq_nil_iff n).mp he)
    obtain ⟨d, t, hbt⟩ : ∃ d t, base256 n = d :: t := by
      cases hc : base256 n with
      | nil => exact absurd hc hne
      | cons d t => exact ⟨d, t, rfl⟩
    have hd : d ≠ 0 := base256_head_ne_zero n d t hbt
    have hL : 1 ≤ (base256 n).length := by rw [hbt]; simp
    rw [derLen, if_neg h]
    simp only [List.cons_append, parseLen]
    rw [if_neg (by omega)]
    have hm : 128 + (base256 n).length - 128 = (base256 n).length := by omega
    rw [hm, if_neg (by omega), if_neg (by rw [List.length_append]; omega),
      List.take_left' rfl, List.drop_left' rfl]
    rw [hbt]
    rw [if_neg (by simp only [List.headD_cons]; exact hd)]
    rw [← hbt, fromBase256_base256, if_neg h]

theorem parseLen_inv (l : List Nat) (n : Nat) (r : List Nat)
    (hb : ∀ x ∈ l, x < 256) (h : parseLen l = some (n, r)) : l = derLen n ++ r := by
  match l with
  | [] => simp [parseLen] at h
  | b :: rest =>
    simp only [parseLen] at h
    by_cases hlt : b < 128
    · rw [if_pos hlt] at h
      simp only [Option.some.injEq, Prod.mk.injEq] at h
      rw [derLen, ← h.1, if_pos hlt]
      simp [h.2]
    · rw [if_neg hlt] at h
      by_cases hm0 : b - 128 = 0
      · simp [hm0] at h
      · rw [if_neg hm0] at h
        by_cases hlen : rest.length < b - 128
        · simp [hlen] at h
        · rw [if_neg hlen] at h
          by_cases hd0 : (rest.take (b - 128)).headD 0 = 0
          · rw [if_pos hd0] at h
            exact Option.noConfusion h
          · rw [if_neg hd0] at h
            by_cases hsm : fromBase256 (rest.take (b - 128)) < 128
            · simp [hsm] at h
            · rw [if_neg hsm] at h
              simp only [Option.some.injEq, Prod.mk.injEq] at h
              obtain ⟨hn, hr⟩ := h
              have htl : (rest.take (b - 128)).length = b - 128 := by
                rw [List.length_take]
                omega
              obtain ⟨d, t, ht⟩ : ∃ d t, rest.take (b - 128) = d :: t := by
                cases hc : rest.take (b - 128) with
                | nil => rw [hc] at htl; simp at htl; omega
                | cons d t => exact ⟨d, t, rfl⟩
              have hd : d ≠ 0 := by
                rw [ht] at hd0
                simpa using hd0
              have hmem : ∀ x ∈ d :: t, x < 256 := by
                intro x hx
                have hx' : x ∈ rest.take (b - 128) := ht ▸ hx
                exact hb x (List.mem_cons_of_mem b (List.mem_of_mem_take hx'))
              have hdig : base256 n = rest.take (b - 128) := by
                rw [← hn, ht]
                exact base256_fromBase256_digits d hd t hmem
              have hblen : (base256 n).length = b - 128 := by rw [hdig, htl]
              rw [derLen, if_neg (fun hcon => hsm (by rw [hn]; exact hcon))]
              rw [hblen, hdig, ← hr]
              simp only [List.cons_append, List.cons.injEq]
              exact ⟨by omega, (List.take_append_drop _ _).symm⟩

/-! ## TLV elements -/

/-- One DER element: tag byte, length octets, content octets. -/
def tlv (t : Nat) (c : List Nat) : List Nat :=
  t :: (derLen c.length ++ c)

/-- Parse one DER element, returning its tag, content and the unconsumed
input. -/
def parseTLV (l : List Nat) : Option (Nat × List Nat × List Nat) :=
  match l with
  | [] => none
  | t :: rest =>
    match parseLen rest with
    | none => none
    | some (n, r) => if n ≤ r.length then some (t, r.take n, r.drop n) else none

theorem parseTLV_tlv (t : Nat) (c rest : List Nat) :
    parseTLV (tlv t c ++ rest) = some (t, c, rest) := by
  simp only [tlv, List.cons_append, parseTLV, List.append_assoc, parseLen_derLen]
  rw [if_pos (by rw [List.length_append]; omega)]
  rw [List.take_left' rfl, List.drop_left' rfl]

theorem parseTLV_self (t : Nat) (c : List Nat) :
    parseTLV (tlv t c) = some (t, c, []) := by
  have h := parseTLV_tlv t c []
  simpa using h

theorem parseTLV_inv (l : List Nat) (t : Nat) (c r : List Nat)
    (hb : ∀ x ∈ l, x < 256) (h : parseTLV l = some (t, c, r)) : l = tlv t c ++ r := by
  match l with
  | [] => simp [parseTLV] at h
  | t0 :: rest =>
    simp only [parseTLV] at h
    cases hp : parseLen rest with
    | none => simp only [hp] at h; exact Option.noConfusion h
    | some nr =>
      obtain ⟨n, r0⟩ := nr
      simp only [hp] at h
      by_cases hle : n ≤ r0.length
      · rw [if_pos hle] at h
        simp only [Option.some.injEq, Prod.mk.injEq] at h
        obtain ⟨ht, hc, hr⟩ := h
        subst ht
        subst hc
        subst hr
        have hcl : (r0.take n).length = n := by
          rw [List.length_take]
          omega
        have hrest : rest = derLen n ++ r0 :=
          parseLen_inv rest n r0 (fun x hx => hb x (List.mem_cons_of_mem _ hx)) hp
        rw [tlv, hcl, hrest, List.cons_append, List.append_assoc, List.take_append_drop]
      · rw [if_neg hle] at h
        exact Option.noConfusion h

theorem parseLen_mono (l : List Nat) (n : Nat) (r e : List Nat)
    (h : parseLen l = some (n, r)) : parseLen (l ++ e) = some (n, r ++ e) := by
  match l with
  | [] => simp [parseLen] at h
  | b :: rest =>
    simp only [parseLen, List.cons_append] at h ⊢
    by_cases hlt : b < 128
    · rw [if_pos hlt] at h ⊢
      simp only [Option.some.injEq, Prod.mk.injEq] at h ⊢
      exact ⟨h.1, by rw [h.2]⟩
    · rw [if_neg hlt] at h ⊢
      by_cases hm0 : b - 128 = 0
      · simp [hm0] at h
      · rw [if_neg hm0] at h ⊢
        by_cases hlen : rest.length < b - 128
        · simp [hlen] at h
        · have hle : b - 128 ≤ rest.length := by omega
          rw [if_neg hlen] at h
          rw [if_neg (by rw [List.length_append]; omega)]
          rw [List.take_append_of_le_length hle, List.drop_append_of_le_length hle]
          by_cases hd0 : (rest.take (b - 128)).headD 0 = 0
          · rw [if_pos hd0] at h
            exact Option.noConfusion h
          · rw [if_neg hd0] at h ⊢
            by_cases hsm : fromBase256 (rest.take (b - 128)) < 128
            · rw [if_pos hsm] at h
              exact Option.noConfusion h
            · rw [if_neg hsm] at h ⊢
              simp only [Option.some.injEq, Prod.mk.injEq] at h ⊢
              exact ⟨h.1, by rw [← h.2]⟩

theorem parseTLV_mono (l : List Nat) (t : Nat) (c r e : List Nat)
    (h : parseTLV l = some (t, c, r)) : parseTLV (l ++ e) = some (t, c, r ++ e) := by
  match l with
  | [] => simp [parseTLV] at h
  | t0 :: rest =>
    simp only [parseTLV, List.cons_append] at h ⊢
    cases hp : parseLen rest with
    | none => simp only [hp] at h; exact Option.noConfusion h
    | some nr =>
      obtain ⟨n, r0⟩ := nr
      simp only [hp] at h
      simp only [parseLen_mono rest n r0 e hp]
      by_cases hle : n ≤ r0.length
      · rw [if_pos hle] at h
        rw [if_pos (by rw [List.length_append]; omega)]
        rw [List.take_append_of_le_length hle, List.drop_append_of_le_length hle]
        simp only [Option.some.injEq, Prod.mk.injEq] at h ⊢
        exact ⟨h.1, h.2.1, by rw [← h.2.2]⟩
      · rw [if_neg hle] at h
        exact Option.noConfusion h

theorem parseLen_rest_le (l : List Nat) (n : Nat) (r : List Nat)
    (h : parseLen l = some (n, r)) : r.length ≤ l.length := by
  match l with
  | [] => simp [parseLen] at h
  | b :: rest =>
    simp only [parseLen] at h
    by_cases hlt : b < 128
    · rw [if_pos hlt] at h
      simp only [Option.some.injEq, Prod.mk.injEq] at h
      rw [← h.2]
      simp only [List.length_cons]
      omega
    · rw [if_neg hlt] at h
      by_cases hm0 : b - 128 = 0
      · simp [hm0] at h
      · rw [if_neg hm0] at h
        by_cases hlen : rest.length < b - 128
        · simp [hlen] at h
        · rw [if_neg hlen] at h
          by_cases hd0 : (rest.take (b - 128)).headD 0 = 0
          · rw [if_pos hd0] at h
            exact Option.noConfusion h
          · rw [if_neg hd0] at h
            by_cases hsm : fromBase256 (rest.take (b - 128)) < 128
            · rw [if_pos hsm] at h
              exact Option.noConfusion h
            · rw [if_neg hsm] at h
              simp only [Option.some.injEq, Prod.mk.injEq] at h
              rw [← h.2]
              simp only [List.length_drop, List.length_cons]
              omega

theorem parseTLV_rest_lt (l : List Nat) (t : Nat) (c r : List Nat)
    (h : parseTLV l = some (t, c, r)) : r.length < l.length := by
  match l with
  | [] => simp [parseTLV] at h
  | t0 :: rest =>
    simp only [parseTLV] at h
    cases hp : parseLen rest with
    | none => simp only [hp] at h; exact Option.noConfusion h
    | some nr =>
      obtain ⟨n, r0⟩ := nr
      simp only [hp] at h
      by_cases hle : n ≤ r0.length
      · rw [if_pos hle] at h
        simp only [Option.some.injEq, Prod.mk.injEq] at h
        have h0 := parseLen_rest_le rest n r0 hp
        rw [← h.2.2]
        simp only [List.length_drop, List.length_cons]
        omega
      · rw [if_neg hle] at h
        exact Option.noConfusion h

/-! ## Object identifiers -/

/-- Fuel-indexed helper for `b128aux`; the fuel only bounds the recursion
depth, which the value of the first argument always covers. -/
def b128auxF : Nat → Nat → List Nat
  | 0, _ => []
  | fuel + 1, n => if n = 0 then [] else b128auxF fuel (n / 128) ++ [128 + n % 128]

/-- Continuation bytes (high bit set) of a base-128 group, most significant
first; empty for 0. -/
def b128aux (n : Nat) : List Nat := b128auxF n n

theorem b128auxF_irrel : ∀ f1 n, n ≤ f1 → ∀ f2, n ≤ f2 →
    b128auxF f1 n = b128auxF f2 n := by
  intro f1
  induction f1 with
  | zero =>
    intro n hn f2 _
    have hn0 : n = 0 := by omega
    subst hn0
    cases f2 with
    | zero => rfl
    | succ f2a => simp [b128auxF]
  | succ f1a ih =>
    intro n hn f2 hn2
    by_cases h0 : n = 0
    · subst h0
      cases f2 with
      | zero => simp [b128auxF]
      | succ f2a => simp [b128auxF]
    · cases f2 with
      | zero => omega
      | succ f2a =>
        simp only [b128auxF, if_neg h0]
        have hlt : n / 128 < n := Nat.div_lt_self (Nat.pos_of_ne_zero h0) (by norm_num)
        rw [ih (n / 128) (by omega) f2a (by omega)]

theorem b128aux_eq (n : Nat) :
    b128aux n = if n = 0 then [] else b128aux (n / 128) ++ [128 + n % 128] := by
  by_cases h0 : n = 0
  · subst h0
    simp [b128aux, b128auxF]
  · rw [if_neg h0]
    obtain ⟨m, rfl⟩ : ∃ m, n = m + 1 := ⟨n - 1, by omega⟩
    have hlt : (m + 1) / 128 < m + 1 := Nat.div_lt_self (by omega) (by norm_num)
    show b128auxF (m + 1) (m + 1) = b128aux ((m + 1) / 128) ++ [128 + (m + 1) % 128]
    simp only [b128auxF, if_neg h0, b128aux]
    rw [b128auxF_irrel m ((m + 1) / 128) (by omega) ((m + 1) / 128) (le_refl _)]

theorem b128aux_zero : b128aux 0 = [] := by
  rw [b128aux_eq]
  simp

/-- Minimal base-128 encoding of one OID component: continuation bytes
followed by the final byte (high bit clear). -/
def b128 (n : Nat) : List Nat :=
  b128aux (n / 128) ++ [n % 128]

/-- Content bytes of the OID components after the first two. -/
def encOIDComponents : List Nat → List Nat
  | [] => []
  | c :: cs => b128 c ++ encOIDComponents cs

/-- DER content octets of an object identifier: the first two components are
packed into one group, the rest follow as base-128 groups. -/
def encOIDContent : List Nat → List Nat
  | a :: b :: rest => b128 (40 * a + b) ++ encOIDComponents rest
  | _ => []

/-- An object identifier the DER encoder can represent: at least two
components, first at most 2, and a second below 40 unless the first is 2. -/
def validOID : List Nat → Bool
  | a :: b :: _ => decide (a ≤ 2) && (decide (a = 2) || decide (b < 40))
  | _ => false

/-- One step of the base-128 group scanner: `cs` are the finished group
values, `acc` the value of the group in progress, `inG` whether a group is in
progress (a group must not start with a bare continuation byte 0x80). -/
def oidStep (s : Option (List Nat × Nat × Bool)) (b : Nat) : Option (List Nat × Nat × Bool) :=
  match s with
  | none => none
  | some (cs, acc, inG) =>
    if inG = false ∧ b = 128 then none
    else if b < 128 then some (cs ++ [acc * 128 + b], 0, false)
    else some (cs, acc * 128 + (b - 128), true)

/-- The base-128 group values of OID content octets, if well formed. -/
def decOIDGroups (l : List Nat) : Option (List Nat) :=
  match l.foldl oidStep (some ([], 0, false)) with
  | some (cs, _, false) => if cs = [] then none else some cs
  | _ => none

/-- Decode OID content octets to the component list, splitting the first
group into the first two components. -/
def decOIDContent (l : List Nat) : Option (List Nat) :=
  match decOIDGroups l with
  | some (v :: vs) =>
    if v < 40 then some (0 :: v :: vs)
    else if v < 80 then some (1 :: (v - 40) :: vs)
    else some (2 :: (v - 80) :: vs)
  | _ => none

theorem oidStep_high (cs : List Nat) (acc : Nat) (flag : Bool) (b : Nat) (hb : 128 ≤ b)
    (hne : flag = true ∨ b ≠ 128) :
    oidStep (some (cs, acc, flag)) b = some (cs, acc * 128 + (b - 128), true) := by
  simp only [oidStep]
  rw [if_neg (by
    rintro ⟨h1, h2⟩
    rcases hne with h3 | h3
    · rw [h3] at h1
      exact Bool.noConfusion h1
    · exact h3 h2)]
  rw [if_neg (by omega)]

theorem oidStep_low (cs : List Nat) (acc : Nat) (flag : Bool) (b : Nat) (hb : b < 128) :
    oidStep (some (cs, acc, flag)) b = some (cs ++ [acc * 128 + b], 0, false) := by
  simp only [oidStep]
  rw [if_neg (by rintro ⟨_, h2⟩; omega), if_pos hb]

theorem oidStep_aux : ∀ m : Nat, m ≠ 0 →
    ∀ (cs : List Nat) (acc : Nat) (flag : Bool) (rest : List Nat),
    List.foldl oidStep (some (cs, acc, flag)) (b128aux m ++ rest)
      = List.foldl oidStep (some (cs, acc * 128 ^ (b128aux m).length + m, true)) rest := by
  intro m
  induction m using Nat.strong_induction_on with
  | _ m ih =>
    intro hm cs acc flag rest
    by_cases hq : m / 128 = 0
    · have hmlt : m < 128 := by omega
      have hm128 : m % 128 = m := Nat.mod_eq_of_lt hmlt
      have hunf : b128aux m = [128 + m] := by
        rw [b128aux_eq, if_neg hm, hq, b128aux_zero, hm128]
        simp
      rw [hunf]
      simp only [List.cons_append, List.nil_append, List.foldl_cons, List.length_cons,
        List.length_nil]
      rw [oidStep_high cs acc flag (128 + m) (by omega) (Or.inr (by omega))]
      have he : acc * 128 + (128 + m - 128) = acc * 128 ^ (0 + 1) + m := by
        rw [pow_one]
        omega
      rw [he]
    · have hunf : b128aux m = b128aux (m / 128) ++ [128 + m % 128] := by
        rw [b128aux_eq, if_neg hm]
      rw [hunf, List.append_assoc]
      simp only [List.length_append, List.length_cons, List.length_nil]
      rw [ih (m / 128) (Nat.div_lt_self (Nat.pos_of_ne_zero hm) (by norm_num)) hq cs acc flag
        ([128 + m % 128] ++ rest)]
      simp only [List.cons_append, List.nil_append, List.foldl_cons]
      rw [oidStep_high _ _ true _ (by omega) (Or.inl rfl)]
      have he : (acc * 128 ^ (b128aux (m / 128)).length + m / 128) * 128 + (128 + m % 128 - 128)
          = acc * 128 ^ ((b128aux (m / 128)).length + 1) + m := by
        have h1 : 128 + m % 128 - 128 = m % 128 := by omega
        rw [h1]
        calc (acc * 128 ^ (b128aux (m / 128)).length + m / 128) * 128 + m % 128
            = acc * (128 ^ (b128aux (m / 128)).length * 128)
              + (128 * (m / 128) + m % 128) := by ring
          _ = acc * 128 ^ ((b128aux (m / 128)).length + 1) + m := by
              rw [← pow_succ, Nat.div_add_mod]
      rw [he]

theorem oidStep_group (n : Nat) (cs : List Nat) (rest : List Nat) :
    List.foldl oidStep (some (cs, 0, false)) (b128 n ++ rest)
      = List.foldl oidStep (some (cs ++ [n], 0, false)) rest := by
  by_cases hq : n / 128 = 0
  · have hnlt : n < 128 := by omega
    have hn128 : n % 128 = n := Nat.mod_eq_of_lt hnlt
    rw [b128, hq, b128aux_zero, hn128]
    simp only [List.nil_append, List.cons_append, List.foldl_cons]
    rw [oidStep_low cs 0 false n hnlt]
    simp
  · rw [b128, List.append_assoc]
    rw [oidStep_aux (n / 128) hq cs 0 false ([n % 128] ++ rest)]
    simp only [List.cons_append, List.nil_append, List.foldl_cons]
    rw [oidStep_low _ _ true _ (Nat.mod_lt n (by norm_num))]
    have he : (0 * 128 ^ (b128aux (n / 128)).length + n / 128) * 128 + n % 128 = n := by
      have := Nat.div_add_mod n 128
      omega
    rw [he]

theorem oidStep_components (comps : List Nat) : ∀ (cs : List Nat) (rest : List Nat),
    List.foldl oidStep (some (cs, 0, false)) (encOIDComponents comps ++ rest)
      = List.foldl oidStep (some (cs ++ comps, 0, false)) rest := by
  induction comps with
  | nil =>
    intro cs rest
    simp [encOIDComponents]
  | cons c cst ih =>
    intro cs rest
    simp only [encOIDComponents, List.append_assoc]
    rw [oidStep_group c cs (encOIDComponents cst ++ rest), ih (cs ++ [c]) rest]
    simp

theorem decOIDContent_encOIDContent (oid : List Nat) (h : validOID oid = true) :
    decOIDContent (encOIDContent oid) = some oid := by
  match oid with
  | [] => simp [validOID] at h
  | [a] => simp [validOID] at h
  | a :: b :: rest =>
    simp only [validOID, Bool.and_eq_true, Bool.or_eq_true, decide_eq_true_eq] at h
    obtain ⟨ha, hab⟩ := h
    have hfold : List.foldl oidStep (some ([], 0, false)) (encOIDContent (a :: b :: rest))
        = some ([40 * a + b] ++ rest, 0, false) := by
      have h1 : encOIDContent (a :: b :: rest) = b128 (40 * a + b) ++ encOIDComponents rest := rfl
      have h2 : encOIDContent (a :: b :: rest)
          = b128 (40 * a + b) ++ (encOIDComponents rest ++ []) := by
        rw [h1]
        simp
      rw [h2, oidStep_group (40 * a + b) [] (encOIDComponents rest ++ [])]
      rw [oidStep_components rest ([] ++ [40 * a + b]) []]
      simp
    have hgroups : decOIDGroups (encOIDContent (a :: b :: rest)) = some ((40 * a + b) :: rest) := by
      simp only [decOIDGroups, hfold, List.cons_append, List.nil_append]
      simp
    simp only [decOIDContent, hgroups]
    rcases Nat.lt_or_ge a 2 with ha2 | ha2
    · have hb40 : b < 40 := by
        rcases hab with h2 | h2
        · omega
        · exact h2
      interval_cases a
      · rw [if_pos (by omega)]
        simp
      · rw [if_neg (by omega), if_pos (by omega)]
        simp only [Option.some.injEq, List.cons.injEq]
        refine ⟨trivial, by omega, trivial⟩
    · have ha2' : a = 2 := by omega
      subst ha2'
      rw [if_neg (by omega), if_neg (by omega)]
      simp only [Option.some.injEq, List.cons.injEq]
      refine ⟨trivial, by omega, trivial⟩

/-! ## DER integers -/

theorem fromBase256_lt (l : List Nat) (h : ∀ x ∈ l, x < 256) :
    fromBase256 l < 256 ^ l.length := by
  induction l with
  | nil => simp [fromBase256]
  | cons x xs ih =>
    rw [fromBase256_cons, List.length_cons, pow_succ]
    have hx : x < 256 := h x (List.mem_cons_self x xs)
    have h2 : fromBase256 xs < 256 ^ xs.length := ih (fun y hy => h y (List.mem_cons_of_mem x hy))
    have h3 : x * 256 ^ xs.length ≤ 255 * 256 ^ xs.length :=
      Nat.mul_le_mul_right _ (by omega)
    omega

theorem base256_length_le_iff (v : Nat) : ∀ k : Nat, (base256 v).length ≤ k ↔ v < 256 ^ k := by
  induction v using Nat.strong_induction_on with
  | _ v ih =>
    intro k
    by_cases hv : v = 0
    · subst hv
      rw [(base256_eq_nil_iff 0).mpr rfl]
      simp
    · rw [base256_eq, if_neg hv]
      simp only [List.length_append, List.length_cons, List.length_nil]
      cases k with
      | zero =>
        simp only [pow_zero]
        constructor
        · intro hc
          omega
        · intro hc
          omega
      | succ k' =>
        rw [pow_succ]
        have hdiv := ih (v / 256) (Nat.div_lt_self (Nat.pos_of_ne_zero hv) (by norm_num)) k'
        have hiff : v / 256 < 256 ^ k' ↔ v < 256 ^ k' * 256 :=
          Nat.div_lt_iff_lt_mul (by norm_num)
        constructor
        · intro hc
          exact hiff.mp (hdiv.mp (by omega))
        · intro hc
          have h1 := hdiv.mpr (hiff.mpr hc)
          omega

/-- Byte count of the minimal two's-complement encoding of a negative
integer of absolute value `m`: the least `k` with `m ≤ 128 * 256 ^ (k - 1)`. -/
def negLen (m : Nat) : Nat :=
  if m ≤ 128 then 1 else 1 + negLen ((m + 255) / 256)
decreasing_by
  rename_i h
  omega

theorem negLen_pos (m : Nat) : 1 ≤ negLen m := by
  rw [negLen]
  by_cases h : m ≤ 128 <;> simp [h]

theorem negLen_le (m : Nat) : m ≤ 128 * 256 ^ (negLen m - 1) := by
  induction m using Nat.strong_induction_on with
  | _ m ih =>
    rw [negLen]
    by_cases h : m ≤ 128
    · rw [if_pos h]
      simpa using h
    · rw [if_neg h]
      have hrec := ih ((m + 255) / 256) (by omega)
      have hk := negLen_pos ((m + 255) / 256)
      have h2 : m ≤ 256 * ((m + 255) / 256) := by omega
      have h3 : 256 * ((m + 255) / 256) ≤ 256 * (128 * 256 ^ (negLen ((m + 255) / 256) - 1)) :=
        Nat.mul_le_mul_left _ hrec
      have h4 : 1 + negLen ((m + 255) / 256) - 1 = negLen ((m + 255) / 256) := by omega
      rw [h4]
      have h5 : 256 ^ negLen ((m + 255) / 256)
          = 256 ^ (negLen ((m + 255) / 256) - 1) * 256 := by
        rw [← pow_succ]
        congr 1
        omega
      rw [h5]
      calc m ≤ 256 * ((m + 255) / 256) := h2
        _ ≤ 256 * (128 * 256 ^ (negLen ((m + 255) / 256) - 1)) := h3
        _ = 128 * (256 ^ (negLen ((m + 255) / 256) - 1) * 256) := by ring

theorem negLen_min (m : Nat) : 2 ≤ negLen m → 128 * 256 ^ (negLen m - 2) < m := by
  induction m using Nat.strong_induction_on with
  | _ m ih =>
    intro h2
    rw [negLen] at h2 ⊢
    by_cases h : m ≤ 128
    · simp [h] at h2
    · rw [if_neg h] at h2 ⊢
      set k : Nat := negLen ((m + 255) / 256) with hk
      have hkpos := negLen_pos ((m + 255) / 256)
      by_cases hk1 : k = 1
      · rw [hk1]
        norm_num
        omega
      · have hk2 : 2 ≤ k := by omega
        have hrec := ih ((m + 255) / 256) (by omega) (by rw [← hk]; exact hk2)
        rw [← hk] at hrec
        have hm' : 256 * ((m + 255) / 256) ≤ m + 255 := by omega
        have h3 : 1 + k - 2 = (k - 2) + 1 := by omega
        rw [h3, pow_succ]
        have h4 : 128 * (256 ^ (k - 2) * 256) = 256 * (128 * 256 ^ (k - 2)) := by ring
        rw [h4]
        have h5 : 128 * 256 ^ (k - 2) + 1 ≤ (m + 255) / 256 := hrec
        have h6 : 256 * (128 * 256 ^ (k - 2) + 1) ≤ 256 * ((m + 255) / 256) :=
          Nat.mul_le_mul_left _ h5
        omega

/-- Minimal two's-complement content octets of a DER INTEGER. -/
def encIntContent (n : Int) : List Nat :=
  if n < 0 then base256 (256 ^ negLen n.natAbs - n.natAbs)
  else
    match base256 n.toNat with
    | [] => [0]
    | d :: t => if 128 ≤ d then 0 :: d :: t else d :: t

/-- Decode two's-complement content octets of a DER INTEGER (strict DER:
shortest form only). -/
def decIntContent : List Nat → Option Int
  | [] => none
  | [b] => some (if b < 128 then (b : Int) else (b : Int) - 256)
  | b0 :: b1 :: rest =>
    if (b0 = 0 ∧ b1 < 128) ∨ (b0 = 255 ∧ 128 ≤ b1) then none
    else if b0 < 128 then some ((fromBase256 (b0 :: b1 :: rest) : Int))
    else some ((fromBase256 (b0 :: b1 :: rest) : Int) - 256 ^ (b0 :: b1 :: rest).length)

theorem decIntContent_neg (m : Nat) (hm1 : 1 ≤ m) :
    decIntContent (base256 (256 ^ negLen m - m)) = some (-(m : Int)) := by
  have hk1 : 1 ≤ negLen m := negLen_pos m
  have hle : m ≤ 128 * 256 ^ (negLen m - 1) := negLen_le m
  have hP1 : 1 ≤ 256 ^ (negLen m - 1) := Nat.one_le_pow _ _ (by norm_num)
  have hpow : 256 ^ negLen m = 256 * 256 ^ (negLen m - 1) := by
    conv_lhs => rw [show negLen m = (negLen m - 1) + 1 by omega]
    rw [pow_succ]
    ring
  have hvlb : 128 * 256 ^ (negLen m - 1) ≤ 256 ^ negLen m - m := by omega
  have hvub : 256 ^ negLen m - m < 256 ^ negLen m := by omega
  have hvm : (256 ^ negLen m - m) + m = 256 ^ negLen m := by omega
  generalize hv : 256 ^ negLen m - m = v at hvlb hvub hvm ⊢
  have hvne : v ≠ 0 := by omega
  obtain ⟨d, t, hb⟩ : ∃ d t, base256 v = d :: t := by
    cases hc : base256 v with
    | nil => exact absurd ((base256_eq_nil_iff v).mp hc) hvne
    | cons d t => exact ⟨d, t, rfl⟩
  have hlen : (base256 v).length = negLen m := by
    have h1 : (base256 v).length ≤ negLen m := (base256_length_le_iff v _).mpr hvub
    have h2 : ¬((base256 v).length ≤ negLen m - 1) := by
      intro hcon
      have h3 := (base256_length_le_iff v (negLen m - 1)).mp hcon
      omega
    omega
  rw [hb] at hlen
  simp only [List.length_cons] at hlen
  have htlen : t.length = negLen m - 1 := by omega
  have hfv := fromBase256_base256 v
  rw [hb] at hfv
  have hval : v = d * 256 ^ (negLen m - 1) + fromBase256 t := by
    rw [fromBase256_cons, htlen] at hfv
    omega
  have htval : fromBase256 t < 256 ^ (negLen m - 1) := by
    have h2 := fromBase256_lt t (fun x hx => base256_lt v x (by
      rw [hb]
      exact List.mem_cons_of_mem d hx))
    rwa [htlen] at h2
  have hd256 : d < 256 := base256_lt v d (by rw [hb]; exact List.mem_cons_self d t)
  have hd128 : 128 ≤ d := by
    by_contra hcon
    push_neg at hcon
    have h1 : v < d * 256 ^ (negLen m - 1) + 256 ^ (negLen m - 1) := by omega
    have h2 : (d + 1) * 256 ^ (negLen m - 1)
        = d * 256 ^ (negLen m - 1) + 256 ^ (negLen m - 1) := by ring
    have h3 : (d + 1) * 256 ^ (negLen m - 1) ≤ 128 * 256 ^ (negLen m - 1) :=
      Nat.mul_le_mul_right _ (by omega)
    omega
  rw [hb]
  cases t with
  | nil =>
    have hnl1 : negLen m = 1 := by
      simp only [List.length_nil] at htlen
      omega
    have h256 : (256 : Nat) ^ negLen m = 256 := by
      rw [hnl1, pow_one]
    have hvd : v = d := by
      rw [hval, hnl1]
      simp [fromBase256]
    simp only [decIntContent]
    rw [if_neg (by omega)]
    simp only [Option.some.injEq]
    omega
  | cons t1 ts =>
    have hk2 : 2 ≤ negLen m := by
      simp only [List.length_cons] at htlen
      omega
    have hmin : 128 * 256 ^ (negLen m - 2) < m := negLen_min m hk2
    have hPR : 256 ^ (negLen m - 1) = 256 * 256 ^ (negLen m - 2) := by
      conv_lhs => rw [show negLen m - 1 = (negLen m - 2) + 1 by omega]
      rw [pow_succ]
      ring
    have htsl : ts.length = negLen m - 2 := by
      simp only [List.length_cons] at htlen
      omega
    have hft : fromBase256 (t1 :: ts) = t1 * 256 ^ (negLen m - 2) + fromBase256 ts := by
      rw [fromBase256_cons, htsl]
    simp only [decIntContent]
    rw [if_neg (by
      rintro (⟨h1, h2⟩ | ⟨h1, h2⟩)
      · omega
      · -- d = 255 and 128 ≤ t1 would make the encoding non-minimal
        have h4 : 128 * 256 ^ (negLen m - 2) ≤ t1 * 256 ^ (negLen m - 2) :=
          Nat.mul_le_mul_right _ h2
        rw [h1] at hval
        omega)]
    rw [if_neg (by omega)]
    simp only [Option.some.injEq]
    have hll : (d :: t1 :: ts).length = negLen m := by
      simp only [List.length_cons]
      simp only [List.length_cons] at htlen
      omega
    rw [hfv, hll]
    have hcast : ((256 ^ negLen m : Nat) : Int) = (256 : Int) ^ negLen m := by
      push_cast
      ring
    omega

theorem decIntContent_encIntContent (n : Int) : decIntContent (encIntContent n) = some n := by
  by_cases hneg : n < 0
  · rw [encIntContent, if_pos hneg]
    have hm1 : 1 ≤ n.natAbs := by omega
    rw [decIntContent_neg n.natAbs hm1]
    congr 1
    omega
  · push_neg at hneg
    rw [encIntContent, if_neg (by omega)]
    cases hb : base256 n.toNat with
    | nil =>
      have h0 : n.toNat = 0 := (base256_eq_nil_iff _).mp hb
      have hn0 : n = 0 := by omega
      subst hn0
      simp [decIntContent]
    | cons d t =>
      simp only [hb]
      have hdne : d ≠ 0 := base256_head_ne_zero n.toNat d t hb
      have hfv : fromBase256 (d :: t) = n.toNat := by
        rw [← hb, fromBase256_base256]
      have hd256 : d < 256 := base256_lt n.toNat d (by rw [hb]; exact List.mem_cons_self d t)
      by_cases hd128 : 128 ≤ d
      · rw [if_pos hd128]
        simp only [decIntContent]
        rw [if_neg (by rintro (⟨h1, h2⟩ | ⟨h1, h2⟩) <;> omega)]
        rw [if_pos (by norm_num)]
        have h2 : fromBase256 (0 :: d :: t) = n.toNat := by
          rw [fromBase256_cons]
          simpa using hfv
        rw [h2]
        simp only [Option.some.injEq]
        omega
      · rw [if_neg hd128]
        cases t with
        | nil =>
          simp only [decIntContent]
          rw [if_pos (by omega)]
          rw [fromBase256_single] at hfv
          simp only [Option.some.injEq]
          omega
        | cons t1 ts =>
          simp only [decIntContent]
          rw [if_neg (by rintro (⟨h1, h2⟩ | ⟨h1, h2⟩) <;> omega)]
          rw [if_pos (by omega)]
          rw [hfv]
          simp only [Option.some.injEq]
          omega

/-! ## Data model -/

/-- One TPM authorization-policy assertion (`TPMPolicy` in the source):
a command code and opaque policy octets. -/
structure TPMPolicy where
  commandCode : Int
  commandPolicy : List Nat
deriving DecidableEq

/-- A named bundle of policy assertions (`TPMAuthPolicy` in the source);
`name` holds the bytes of the UTF-8 label, empty when absent. -/
structure TPMAuthPolicy where
  name : List Nat
  policy : List TPMPolicy
deriving DecidableEq

/-- The root record (`TPMKey` in the source); `type` is the object
identifier as a component list. -/
structure TPMKey where
  type : List Nat
  emptyAuth : Bool
  policy : List TPMPolicy
  secret : List Nat
  authPolicy : List TPMAuthPolicy
  parent : Int
  publicKey : List Nat
  privateKey : List Nat
deriving DecidableEq

/-- The registered loadable-key object identifier 2.23.133.10.1.3. -/
def oidLoadableKey : List Nat := [2, 23, 133, 10, 1, 3]

/-- The registered importable-key object identifier 2.23.133.10.1.4. -/
def oidImportableKey : List Nat := [2, 23, 133, 10, 1, 4]

/-- The registered sealed-key object identifier 2.23.133.10.1.5. -/
def oidSealedKey : List Nat := [2, 23, 133, 10, 1, 5]

/-- Error kinds of the codec. -/
inductive Err where
  | malformed
  | trailingData
  | invalidArgument
  | unsupportedField
deriving DecidableEq

/-! ## Encoder -/

/-- Content of the SEQUENCE encoding one policy assertion: explicitly tagged
command code (context tag 0) and command policy octet string (context tag 1). -/
def encPolicyContent (p : TPMPolicy) : List Nat :=
  tlv 160 (tlv 2 (encIntContent p.commandCode)) ++ tlv 161 (tlv 4 p.commandPolicy)

/-- DER encoding of one policy assertion. -/
def encPolicy (p : TPMPolicy) : List Nat :=
  tlv 48 (encPolicyContent p)

/-- Concatenated encodings of a policy sequence. -/
def encPolicies : List TPMPolicy → List Nat
  | [] => []
  | p :: ps => encPolicy p ++ encPolicies ps

/-- Content of the SEQUENCE encoding one named policy bundle: optional
explicitly tagged UTF8String name (context tag 0, omitted when empty) and the
explicitly tagged sequence of policies (context tag 1). -/
def encAuthPolicyContent (a : TPMAuthPolicy) : List Nat :=
  (if a.name = [] then [] else tlv 160 (tlv 12 a.name))
    ++ tlv 161 (tlv 48 (encPolicies a.policy))

/-- DER encoding of one named policy bundle. -/
def encAuthPolicy (a : TPMAuthPolicy) : List Nat :=
  tlv 48 (encAuthPolicyContent a)

/-- Concatenated encodings of a sequence of named policy bundles. -/
def encAuthPolicies : List TPMAuthPolicy → List Nat
  | [] => []
  | a :: rest => encAuthPolicy a ++ encAuthPolicies rest

/-- Content of the outer SEQUENCE produced by the encoder: the object
identifier, the four optional context-tagged fields (each omitted at its
default), then parent, public key and private key. -/
def marshalBody (k : TPMKey) : List Nat :=
  tlv 6 (encOIDContent k.type)
    ++ (if k.emptyAuth then tlv 160 (tlv 1 [255]) else [])
    ++ (if k.policy = [] then [] else tlv 161 (tlv 48 (encPolicies k.policy)))
    ++ (if k.secret = [] then [] else tlv 162 (tlv 4 k.secret))
    ++ (if k.authPolicy = [] then [] else tlv 163 (tlv 48 (encAuthPolicies k.authPolicy)))
    ++ tlv 2 (encIntContent k.parent)
    ++ tlv 4 k.publicKey
    ++ tlv 4 k.privateKey

/-- Modelled from the spec: `MarshalPrivateKey` of the `tss2` package, whose
implementation is not part of the source sample (only its tests are).  It
fails with `InvalidArgument` on a null record, emits the object identifier
first, each optional field only when non-default, then parent, public key and
private key, using minimal-length DER encoding throughout; an object
identifier the DER encoder cannot represent is a failure. -/
def MarshalPrivateKey : Option TPMKey → Except Err (List Nat)
  | none => .error .invalidArgument
  | some k =>
    if validOID k.type then .ok (tlv 48 (marshalBody k)) else .error .malformed

/-! ## Decoder -/

/-- Try to consume one element carrying the given tag; on a different tag or
unparsable input, consume nothing. -/
def tryTag (t : Nat) (l : List Nat) : Option (List Nat) × List Nat :=
  match parseTLV l with
  | some (t0, c, r) => if t0 = t then (some c, r) else (none, l)
  | none => (none, l)

/-- Sequentially attempt the four optional context tags 0..3 in increasing
order, returning the contents found and the unconsumed input. -/
def parseOptionals (l : List Nat) :
    Option (List Nat) × Option (List Nat) × Option (List Nat) × Option (List Nat) × List Nat :=
  let s0 := tryTag 160 l
  let s1 := tryTag 161 s0.2
  let s2 := tryTag 162 s1.2
  let s3 := tryTag 163 s2.2
  (s0.1, s1.1, s2.1, s3.1, s3.2)

/-- Decode BOOLEAN content octets: a single octet, zero meaning false and any
non-zero value meaning true. -/
def decBoolContent : List Nat → Option Bool
  | [b] => some (if b = 0 then false else true)
  | _ => none

/-- The explicitly tagged boolean: absent means false. -/
def decOptBool : Option (List Nat) → Option Bool
  | none => some false
  | some c =>
    match parseTLV c with
    | some (1, bc, List.nil) => decBoolContent bc
    | _ => none

/-- Decode the content of one policy SEQUENCE. -/
def parsePolicy (c : List Nat) : Option TPMPolicy :=
  match parseTLV c with
  | some (160, cc, r1) =>
    match parseTLV cc with
    | some (2, ic, List.nil) =>
      match decIntContent ic with
      | some code =>
        match parseTLV r1 with
        | some (161, pc, List.nil) =>
          match parseTLV pc with
          | some (4, bytes, List.nil) => some ⟨code, bytes⟩
          | _ => none
        | _ => none
      | none => none
    | _ => none
  | _ => none

/-- Decode a concatenation of policy SEQUENCE elements. -/
def parsePolicies (l : List Nat) : Option (List TPMPolicy) :=
  if l = [] then some []
  else
    match h : parseTLV l with
    | some (t, c, r) =>
      if t = 48 then
        match parsePolicy c with
        | some p =>
          match parsePolicies r with
          | some ps => some (p :: ps)
          | none => none
        | none => none
      else none
    | none => none
termination_by l.length
decreasing_by exact parseTLV_rest_lt l t c r h

/-- Decode the optional explicitly tagged UTF8String name; absent means the
empty name. -/
def parseAuthName : Option (List Nat) → Option (List Nat)
  | none => some []
  | some nc =>
    match parseTLV nc with
    | some (12, nm, List.nil) => some nm
    | _ => none

/-- Decode the content of one named policy bundle SEQUENCE. -/
def parseAuthPolicy (c : List Nat) : Option TPMAuthPolicy :=
  match parseAuthName (tryTag 160 c).1 with
  | some nm =>
    match parseTLV (tryTag 160 c).2 with
    | some (161, pc, List.nil) =>
      match parseTLV pc with
      | some (48, sc, List.nil) =>
        match parsePolicies sc with
        | some ps => some ⟨nm, ps⟩
        | none => none
      | _ => none
    | _ => none
  | none => none

/-- Decode a concatenation of named policy bundle SEQUENCE elements. -/
def parseAuthPolicies (l : List Nat) : Option (List TPMAuthPolicy) :=
  if l = [] then some []
  else
    match h : parseTLV l with
    | some (t, c, r) =>
      if t = 48 then
        match parseAuthPolicy c with
        | some a =>
          match parseAuthPolicies r with
          | some rest => some (a :: rest)
          | none => none
        | none => none
      else none
    | none => none
termination_by l.length
decreasing_by exact parseTLV_rest_lt l t c r h

/-- The explicitly tagged policy sequence: absent means empty. -/
def decOptPolicies : Option (List Nat) → Option (List TPMPolicy)
  | none => some []
  | some c =>
    match parseTLV c with
    | some (48, sc, List.nil) => parsePolicies sc
    | _ => none

/-- The explicitly tagged secret octet string: absent means empty. -/
def decOptSecret : Option (List Nat) → Option (List Nat)
  | none => some []
  | some c =>
    match parseTLV c with
    | some (4, s, List.nil) => some s
    | _ => none

/-- The explicitly tagged sequence of named policy bundles: absent means
empty. -/
def decOptAuthPolicies : Option (List Nat) → Option (List TPMAuthPolicy)
  | none => some []
  | some c =>
    match parseTLV c with
    | some (48, sc, List.nil) => parseAuthPolicies sc
    | _ => none

/-- Decode the content of the outer SEQUENCE: object identifier, the four
optional context-tagged fields in fixed order (a context tag left over after
that run is out of order or duplicated), then parent, public key and private
key, consuming the content exactly. -/
def decodeBody (body : List Nat) : Except Err TPMKey :=
  match parseTLV body with
  | some (6, oc, r1) =>
    match decOIDContent oc with
    | some oid =>
      match parseOptionals r1 with
      | (o0, o1, o2, o3, r) =>
        match decOptBool o0, decOptPolicies o1, decOptSecret o2, decOptAuthPolicies o3 with
        | some ea, some ps, some sec, some aps =>
          match parseTLV r with
          | some (t, pc, r2) =>
            if t = 160 ∨ t = 161 ∨ t = 162 ∨ t = 163 then .error .unsupportedField
            else if t = 2 then
              match decIntContent pc with
              | some par =>
                match parseTLV r2 with
                | some (4, pub, r3) =>
                  match parseTLV r3 with
                  | some (4, priv, r4) =>
                    if r4 = [] then .ok ⟨oid, ea, ps, sec, aps, par, pub, priv⟩
                    else .error .malformed
                  | _ => .error .malformed
                | _ => .error .malformed
              | none => .error .malformed
            else .error .malformed
          | none => .error .malformed
        | _, _, _, _ => .error .malformed
    | none => .error .malformed
  | _ => .error .malformed

/-- Modelled from the spec: `ParsePrivateKey` of the `tss2` package, whose
implementation is not part of the source sample (only its tests are).  It
parses the outer SEQUENCE, rejects trailing bytes with `TrailingData`, and
decodes the body per the fixed field layout. -/
def ParsePrivateKey (b : List Nat) : Except Err TPMKey :=
  match parseTLV b with
  | some (48, body, rest) => if rest = [] then decodeBody body else .error .trailingData
  | _ => .error .malformed

/-! ## Decoder lemmas -/

instance instDecEqExcept {α β : Type} [DecidableEq α] [DecidableEq β] :
    DecidableEq (Except α β)
  | .error a, .error b =>
    if h : a = b then isTrue (by rw [h]) else isFalse (by simp [h])
  | .error _, .ok _ => isFalse (by simp)
  | .ok _, .error _ => isFalse (by simp)
  | .ok a, .ok b =>
    if h : a = b then isTrue (by rw [h]) else isFalse (by simp [h])

theorem parseTLV_head (l : List Nat) (t : Nat) (c r : List Nat)
    (h : parseTLV l = some (t, c, r)) : l.head? = some t := by
  match l with
  | [] => simp [parseTLV] at h
  | x :: xs =>
    simp only [parseTLV] at h
    cases hq : parseLen xs with
    | none =>
      simp only [hq] at h
      exact Option.noConfusion h
    | some nr =>
      obtain ⟨n, r0⟩ := nr
      simp only [hq] at h
      by_cases hle : n ≤ r0.length
      · rw [if_pos hle] at h
        simp only [Option.some.injEq, Prod.mk.injEq] at h
        simp [h.1]
      · rw [if_neg hle] at h
        exact Option.noConfusion h

theorem head?_tlv_append (t : Nat) (c r : List Nat) : (tlv t c ++ r).head? = some t := by
  simp [tlv]

theorem tryTag_hit (t : Nat) (c rest : List Nat) :
    tryTag t (tlv t c ++ rest) = (some c, rest) := by
  simp [tryTag, parseTLV_tlv]

theorem tryTag_miss (t : Nat) (l : List Nat) (h : l.head? ≠ some t) :
    tryTag t l = (none, l) := by
  cases hp : parseTLV l with
  | none => simp [tryTag, hp]
  | some tcr =>
    obtain ⟨t0, c, r⟩ := tcr
    have ht0 := parseTLV_head l t0 c r hp
    have hne : t0 ≠ t := fun he => h (he ▸ ht0)
    simp [tryTag, hp, hne]

/-- The wire image of one optional explicitly tagged field. -/
def optE (t : Nat) : Option (List Nat) → List Nat
  | none => []
  | some c => tlv t c

theorem tryTag_miss_tlv (t t' : Nat) (c r : List Nat) (hne : t' ≠ t) :
    tryTag t (tlv t' c ++ r) = (none, tlv t' c ++ r) :=
  tryTag_miss t _ (by simp [tlv, hne])

theorem parseOptionals_optE (o0 o1 o2 o3 : Option (List Nat)) (rest : List Nat)
    (h : rest.head? = some 2) :
    parseOptionals (optE 160 o0 ++ (optE 161 o1 ++ (optE 162 o2 ++ (optE 163 o3 ++ rest))))
      = (o0, o1, o2, o3, rest) := by
  have m0 : tryTag 160 rest = (none, rest) := tryTag_miss _ _ (by rw [h]; simp)
  have m1 : tryTag 161 rest = (none, rest) := tryTag_miss _ _ (by rw [h]; simp)
  have m2 : tryTag 162 rest = (none, rest) := tryTag_miss _ _ (by rw [h]; simp)
  have m3 : tryTag 163 rest = (none, rest) := tryTag_miss _ _ (by rw [h]; simp)
  cases o0 <;> cases o1 <;> cases o2 <;> cases o3 <;>
    simp [parseOptionals, optE, tryTag_hit, tryTag_miss_tlv, m0, m1, m2, m3]

theorem tryTag_hit' (t : Nat) (c : List Nat) : tryTag t (tlv t c) = (some c, []) := by
  have h := tryTag_hit t c []
  simpa using h

theorem tryTag_miss_tlv' (t t' : Nat) (c : List Nat) (hne : t' ≠ t) :
    tryTag t (tlv t' c) = (none, tlv t' c) :=
  tryTag_miss t _ (by simp [tlv, hne])

theorem parseOptionals_optE' (o0 o1 o2 o3 : Option (List Nat)) (c r' : List Nat) :
    parseOptionals
        (optE 160 o0 ++ (optE 161 o1 ++ (optE 162 o2 ++ (optE 163 o3 ++ (tlv 2 c ++ r')))))
      = (o0, o1, o2, o3, tlv 2 c ++ r') :=
  parseOptionals_optE _ _ _ _ _ (head?_tlv_append 2 c r')

theorem decOptBool_enc (b : Bool) :
    decOptBool (if b then some (tlv 1 [255]) else none) = some b := by
  cases b
  · simp [decOptBool]
  · simp [decOptBool, parseTLV_self, decBoolContent]

theorem parsePolicy_enc (p : TPMPolicy) :
    parsePolicy (encPolicyContent p) = some p := by
  simp [parsePolicy, encPolicyContent, parseTLV_tlv, parseTLV_self, decIntContent_encIntContent]

theorem parsePolicies_enc (ps : List TPMPolicy) :
    parsePolicies (encPolicies ps) = some ps := by
  induction ps with
  | nil =>
    rw [show encPolicies [] = [] from rfl, parsePolicies]
    simp
  | cons p pt ih =>
    have he : encPolicies (p :: pt) = tlv 48 (encPolicyContent p) ++ encPolicies pt := rfl
    rw [he, parsePolicies, if_neg (by simp [tlv])]
    split
    · rename_i t c r heq
      rw [parseTLV_tlv] at heq
      simp only [Option.some.injEq, Prod.mk.injEq] at heq
      obtain ⟨h1, h2, h3⟩ := heq
      subst h1
      subst h2
      subst h3
      rw [if_pos rfl]
      simp [parsePolicy_enc, ih]
    · rename_i heq
      rw [parseTLV_tlv] at heq
      exact Option.noConfusion heq

theorem parseAuthPolicy_enc (a : TPMAuthPolicy) :
    parseAuthPolicy (encAuthPolicyContent a) = some a := by
  obtain ⟨nm, pol⟩ := a
  by_cases hn : nm = []
  · subst hn
    have hc : encAuthPolicyContent ⟨[], pol⟩ = tlv 161 (tlv 48 (encPolicies pol)) := by
      simp [encAuthPolicyContent]
    rw [hc, parseAuthPolicy, tryTag_miss_tlv' 160 161 _ (by omega)]
    simp [parseAuthName, parseTLV_self, parsePolicies_enc]
  · have hc : encAuthPolicyContent ⟨nm, pol⟩
        = tlv 160 (tlv 12 nm) ++ tlv 161 (tlv 48 (encPolicies pol)) := by
      simp [encAuthPolicyContent, hn]
    rw [hc, parseAuthPolicy, tryTag_hit]
    simp [parseAuthName, parseTLV_self, parsePolicies_enc]

theorem parseAuthPolicies_enc (l : List TPMAuthPolicy) :
    parseAuthPolicies (encAuthPolicies l) = some l := by
  induction l with
  | nil =>
    rw [show encAuthPolicies [] = [] from rfl, parseAuthPolicies]
    simp
  | cons a rest ih =>
    have he : encAuthPolicies (a :: rest)
        = tlv 48 (encAuthPolicyContent a) ++ encAuthPolicies rest := rfl
    rw [he, parseAuthPolicies, if_neg (by simp [tlv])]
    split
    · rename_i t c r heq
      rw [parseTLV_tlv] at heq
      simp only [Option.some.injEq, Prod.mk.injEq] at heq
      obtain ⟨h1, h2, h3⟩ := heq
      subst h1
      subst h2
      subst h3
      rw [if_pos rfl]
      simp [parseAuthPolicy_enc, ih]
    · rename_i heq
      rw [parseTLV_tlv] at heq
      exact Option.noConfusion heq

theorem decOptPolicies_enc (ps : List TPMPolicy) :
    decOptPolicies (if ps = [] then none else some (tlv 48 (encPolicies ps))) = some ps := by
  by_cases hp : ps = []
  · simp [hp, decOptPolicies]
  · simp [hp, decOptPolicies, parseTLV_self, parsePolicies_enc]

theorem decOptSecret_enc (s : List Nat) :
    decOptSecret (if s = [] then none else some (tlv 4 s)) = some s := by
  by_cases hs : s = []
  · simp [hs, decOptSecret]
  · simp [hs, decOptSecret, parseTLV_self]

theorem decOptAuthPolicies_enc (l : List TPMAuthPolicy) :
    decOptAuthPolicies (if l = [] then none else some (tlv 48 (encAuthPolicies l)))
      = some l := by
  by_cases hl : l = []
  · simp [hl, decOptAuthPolicies]
  · simp [hl, decOptAuthPolicies, parseTLV_self, parseAuthPolicies_enc]

theorem decodeBody_marshalBody (k : TPMKey) (h : validOID k.type = true) :
    decodeBody (marshalBody k) = .ok k := by
  obtain ⟨oid, ea, ps, sec, aps, par, pub, priv⟩ := k
  simp only [marshalBody] at *
  have e0 : (if ea then tlv 160 (tlv 1 [255]) else [])
      = optE 160 (if ea then some (tlv 1 [255]) else none) := by
    cases ea <;> rfl
  have e1 : (if ps = [] then [] else tlv 161 (tlv 48 (encPolicies ps)))
      = optE 161 (if ps = [] then none else some (tlv 48 (encPolicies ps))) := by
    by_cases hp : ps = [] <;> simp [hp, optE]
  have e2 : (if sec = [] then [] else tlv 162 (tlv 4 sec))
      = optE 162 (if sec = [] then none else some (tlv 4 sec)) := by
    by_cases hs : sec = [] <;> simp [hs, optE]
  have e3 : (if aps = [] then [] else tlv 163 (tlv 48 (encAuthPolicies aps)))
      = optE 163 (if aps = [] then none else some (tlv 48 (encAuthPolicies aps))) := by
    by_cases ha : aps = [] <;> simp [ha, optE]
  rw [e0, e1, e2, e3]
  simp only [List.append_assoc, decodeBody, parseTLV_tlv, decOIDContent_encOIDContent oid h,
    parseOptionals_optE', decOptBool_enc, decOptPolicies_enc, decOptSecret_enc,
    decOptAuthPolicies_enc, parseTLV_self, decIntContent_encIntContent]
  norm_num

theorem ParsePrivateKey_MarshalPrivateKey (k : TPMKey) (b : List Nat)
    (h : MarshalPrivateKey (some k) = .ok b) : ParsePrivateKey b = .ok k := by
  simp only [MarshalPrivateKey] at h
  by_cases hv : validOID k.type
  · rw [if_pos hv] at h
    simp only [Except.ok.injEq] at h
    subst h
    simp only [ParsePrivateKey, parseTLV_self, if_pos rfl]
    exact decodeBody_marshalBody k hv
  · rw [if_neg hv] at h
    exact Except.noConfusion h

theorem ParsePrivateKey_trailing (b : List Nat) (k : TPMKey) (x : Nat)
    (h : ParsePrivateKey b = .ok k) :
    ParsePrivateKey (b ++ [x]) = .error .trailingData := by
  rw [ParsePrivateKey] at h
  split at h
  · rename_i body rest heq
    by_cases hrest : rest = []
    · subst hrest
      have hmono := parseTLV_mono b 48 body [] [x] heq
      rw [List.nil_append] at hmono
      rw [ParsePrivateKey]
      simp [hmono]
    · rw [if_neg hrest] at h
      exact Except.noConfusion h
  · exact Except.noConfusion h

/-! ## Top-level tags of a body -/

/-- The tags of the consecutive DER elements of a byte string (stopping at
the first position that is not a parsable element). -/
def topTags (l : List Nat) : List Nat :=
  match h : parseTLV l with
  | some (t, c, r) => t :: topTags r
  | none => []
termination_by l.length
decreasing_by exact parseTLV_rest_lt l t c r h

theorem topTags_nil : topTags [] = [] := by
  rw [topTags]
  simp [parseTLV]

theorem topTags_tlv (t : Nat) (c r : List Nat) : topTags (tlv t c ++ r) = t :: topTags r := by
  rw [topTags]
  split
  · rename_i t' c' r' heq
    rw [parseTLV_tlv] at heq
    simp only [Option.some.injEq, Prod.mk.injEq] at heq
    obtain ⟨h1, h2, h3⟩ := heq
    subst h1
    subst h3
    rfl
  · rename_i heq
    rw [parseTLV_tlv] at heq
    exact Option.noConfusion heq

theorem topTags_tlv' (t : Nat) (c : List Nat) : topTags (tlv t c) = [t] := by
  have h := topTags_tlv t c []
  simpa [topTags_nil] using h

theorem topTags_marshalBody (k : TPMKey) :
    topTags (marshalBody k)
      = 6 :: ((if k.emptyAuth then [160] else [])
          ++ ((if k.policy = [] then [] else [161])
          ++ ((if k.secret = [] then [] else [162])
          ++ ((if k.authPolicy = [] then [] else [163])
          ++ [2, 4, 4])))) := by
  obtain ⟨oid, ea, ps, sec, aps, par, pub, priv⟩ := k
  simp only [marshalBody]
  by_cases h0 : ea <;> by_cases h1 : ps = [] <;> by_cases h2 : sec = [] <;>
    by_cases h3 : aps = [] <;>
    simp [h0, h1, h2, h3, List.append_assoc, topTags_tlv, topTags_tlv', topTags_nil]

/-! ## Decoder inversion -/

theorem tryTag_decomp (t : Nat) (l : List Nat) (o : Option (List Nat)) (r : List Nat)
    (hb : ∀ x ∈ l, x < 256) (h : tryTag t l = (o, r)) :
    l = optE t o ++ r ∧ (∀ x ∈ r, x < 256) := by
  cases hp : parseTLV l with
  | none =>
    simp only [tryTag, hp, Prod.mk.injEq] at h
    obtain ⟨ho, hr⟩ := h
    subst ho
    subst hr
    exact ⟨by simp [optE], hb⟩
  | some tcr =>
    obtain ⟨t0, c, r0⟩ := tcr
    simp only [tryTag, hp] at h
    by_cases hte : t0 = t
    · subst hte
      rw [if_pos rfl] at h
      simp only [Prod.mk.injEq] at h
      obtain ⟨ho, hr⟩ := h
      subst ho
      subst hr
      have hl := parseTLV_inv l t0 c r0 hb hp
      refine ⟨by simpa [optE] using hl, ?_⟩
      intro x hx
      apply hb
      rw [hl]
      exact List.mem_append.mpr (Or.inr hx)
    · rw [if_neg hte] at h
      simp only [Prod.mk.injEq] at h
      obtain ⟨ho, hr⟩ := h
      subst ho
      subst hr
      exact ⟨by simp [optE], hb⟩

theorem parseOptionals_decomp (l : List Nat) (o0 o1 o2 o3 : Option (List Nat)) (r : List Nat)
    (hb : ∀ x ∈ l, x < 256) (h : parseOptionals l = (o0, o1, o2, o3, r)) :
    l = optE 160 o0 ++ (optE 161 o1 ++ (optE 162 o2 ++ (optE 163 o3 ++ r)))
      ∧ (∀ x ∈ r, x < 256) := by
  simp only [parseOptionals] at h
  rcases hs0 : tryTag 160 l with ⟨a0, r0⟩
  rcases hs1 : tryTag 161 r0 with ⟨a1, r1⟩
  rcases hs2 : tryTag 162 r1 with ⟨a2, r2⟩
  rcases hs3 : tryTag 163 r2 with ⟨a3, r3⟩
  simp only [hs0, hs1, hs2, hs3, Prod.mk.injEq] at h
  obtain ⟨h0, h1, h2, h3, h4⟩ := h
  subst h0
  subst h1
  subst h2
  subst h3
  subst h4
  obtain ⟨he0, hb0⟩ := tryTag_decomp 160 l a0 r0 hb hs0
  obtain ⟨he1, hb1⟩ := tryTag_decomp 161 r0 a1 r1 hb0 hs1
  obtain ⟨he2, hb2⟩ := tryTag_decomp 162 r1 a2 r2 hb1 hs2
  obtain ⟨he3, hb3⟩ := tryTag_decomp 163 r2 a3 r3 hb2 hs3
  refine ⟨?_, hb3⟩
  rw [he0, he1, he2, he3]

theorem ParsePrivateKey_shape (b : List Nat) (k : TPMKey)
    (hb : ∀ x ∈ b, x < 256) (h : ParsePrivateKey b = .ok k) :
    ∃ oc o0 o1 o2 o3 pc uc vc,
      b = tlv 48 (tlv 6 oc ++ (optE 160 o0 ++ (optE 161 o1 ++ (optE 162 o2
        ++ (optE 163 o3 ++ (tlv 2 pc ++ (tlv 4 uc ++ tlv 4 vc))))))) := by
  rw [ParsePrivateKey] at h
  split at h
  · rename_i body rest heq
    by_cases hrest : rest = []
    · subst hrest
      have hbeq : b = tlv 48 body := by
        have h1 := parseTLV_inv b 48 body [] hb heq
        simpa using h1
      have hbody : ∀ x ∈ body, x < 256 := by
        intro x hx
        apply hb
        rw [hbeq]
        simp only [tlv, List.mem_cons, List.mem_append]
        tauto
      rw [if_pos rfl] at h
      rw [decodeBody] at h
      split at h
      · rename_i oc r1 heq1
        have hr1 : body = tlv 6 oc ++ r1 := parseTLV_inv body 6 oc r1 hbody heq1
        have hr1b : ∀ x ∈ r1, x < 256 := by
          intro x hx
          apply hbody
          rw [hr1]
          exact List.mem_append.mpr (Or.inr hx)
        split at h
        · rename_i oid heq2
          rcases hpo : parseOptionals r1 with ⟨o0, o1, o2, o3, r⟩
          simp only [hpo] at h
          obtain ⟨hre, hrb⟩ := parseOptionals_decomp r1 o0 o1 o2 o3 r hr1b hpo
          split at h
          · rename_i ea ps sec aps heqa heqb heqc heqd
            split at h
            · rename_i t pc r2 heq3
              have hr2 : r = tlv t pc ++ r2 := parseTLV_inv r t pc r2 hrb heq3
              have hr2b : ∀ x ∈ r2, x < 256 := by
                intro x hx
                apply hrb
                rw [hr2]
                exact List.mem_append.mpr (Or.inr hx)
              by_cases hctx : t = 160 ∨ t = 161 ∨ t = 162 ∨ t = 163
              · rw [if_pos hctx] at h
                exact Except.noConfusion h
              · rw [if_neg hctx] at h
                by_cases ht2 : t = 2
                · subst ht2
                  rw [if_pos rfl] at h
                  split at h
                  · rename_i par heq4
                    split at h
                    · rename_i pub r3 heq5
                      have hr3 : r2 = tlv 4 pub ++ r3 := parseTLV_inv r2 4 pub r3 hr2b heq5
                      have hr3b : ∀ x ∈ r3, x < 256 := by
                        intro x hx
                        apply hr2b
                        rw [hr3]
                        exact List.mem_append.mpr (Or.inr hx)
                      split at h
                      · rename_i priv r4 heq6
                        have hr4 : r3 = tlv 4 priv ++ r4 :=
                          parseTLV_inv r3 4 priv r4 hr3b heq6
                        by_cases hr4e : r4 = []
                        · subst hr4e
                          refine ⟨oc, o0, o1, o2, o3, pc, pub, priv, ?_⟩
                          rw [hbeq, hr1, hre, hr2, hr3, hr4]
                          simp
                        · rw [if_neg hr4e] at h
                          exact Except.noConfusion h
                      · exact Except.noConfusion h
                    · exact Except.noConfusion h
                  · exact Except.noConfusion h
                · rw [if_neg ht2] at h
                  exact Except.noConfusion h
            · exact Except.noConfusion h
          · exact Except.noConfusion h
        · exact Except.noConfusion h
      · exact Except.noConfusion h
    · rw [if_neg hrest] at h
      exact Except.noConfusion h
  · exact Except.noConfusion h

theorem decOptBool_some : decOptBool (some (tlv 1 [255])) = some true := by
  simp [decOptBool, parseTLV_self, decBoolContent]

theorem decOptPolicies_some (ps : List TPMPolicy) :
    decOptPolicies (some (tlv 48 (encPolicies ps))) = some ps := by
  simp [decOptPolicies, parseTLV_self, parsePolicies_enc]

theorem decOptSecret_some (s : List Nat) :
    decOptSecret (some (tlv 4 s)) = some s := by
  simp [decOptSecret, parseTLV_self]

theorem decOptAuthPolicies_some (l : List TPMAuthPolicy) :
    decOptAuthPolicies (some (tlv 48 (encAuthPolicies l))) = some l := by
  simp [decOptAuthPolicies, parseTLV_self, parseAuthPolicies_enc]

theorem parseOptionals_allHit (c0 c1 c2 c3 : List Nat) (rest : List Nat) :
    parseOptionals (tlv 160 c0 ++ (tlv 161 c1 ++ (tlv 162 c2 ++ (tlv 163 c3 ++ rest))))
      = (some c0, some c1, some c2, some c3, rest) := by
  simp [parseOptionals, tryTag_hit]

theorem ParsePrivateKey_unsupported (oid : List Nat) (hv : validOID oid = true)
    (ps : List TPMPolicy) (s : List Nat) (aps : List TPMAuthPolicy)
    (j : Nat) (hj : j < 4) (c rest : List Nat) :
    ParsePrivateKey (tlv 48 (tlv 6 (encOIDContent oid)
      ++ (tlv 160 (tlv 1 [255]) ++ (tlv 161 (tlv 48 (encPolicies ps))
      ++ (tlv 162 (tlv 4 s) ++ (tlv 163 (tlv 48 (encAuthPolicies aps))
      ++ (tlv (160 + j) c ++ rest)))))))
      = .error .unsupportedField := by
  rw [ParsePrivateKey]
  simp only [parseTLV_self, if_pos rfl]
  simp only [decodeBody, parseTLV_tlv, decOIDContent_encOIDContent oid hv,
    parseOptionals_allHit, decOptBool_some, decOptPolicies_some, decOptSecret_some,
    decOptAuthPolicies_some]
  have hcond : 160 + j = 160 ∨ 160 + j = 161 ∨ 160 + j = 162 ∨ 160 + j = 163 := by
    interval_cases j <;> simp
  rw [if_pos hcond]
  simp

/-! ## Fixtures

Byte vectors taken from the test file of the `tss2` package: the exact
encoding of `TestMarshalPrivateKey`, and the DER payloads of the
`p256TSS2PEM` and `p256EmptyAuthFalse` PEM fixtures together with the records
the tests expect them to parse to. -/

/-- The record of the exact-encoding test (`TestMarshalPrivateKey`): type
loadable, empty auth, parent 1234, public key "pubkey", private key
"privkey". -/
def exactKeyC2 : TPMKey :=
  ⟨oidLoadableKey, true, [], [], [], 1234,
    [112, 117, 98, 107, 101, 121], [112, 114, 105, 118, 107, 101, 121]⟩

/-- The 36-byte encoding the test expects for `exactKeyC2`. -/
def exactBytesC2 : List Nat :=
  [48, 34, 6, 6, 103, 129, 5, 10, 1, 3, 160, 3, 1, 1, 255, 2, 2, 4, 210,
   4, 6, 112, 117, 98, 107, 101, 121, 4, 7, 112, 114, 105, 118, 107, 101, 121]

def p256TrueDER : List Nat :=
  [48, 129, 240, 6, 6, 103, 129, 5, 10, 1, 3, 160, 3, 1, 1, 1, 2, 4, 64, 0, 0, 1, 4, 88, 0, 86,
   0, 35, 0, 11, 0, 6, 0, 114, 0, 0, 0, 16, 0, 16, 0, 3, 0, 16, 0, 32, 238, 203, 106, 234, 251,
   135, 101, 192, 202, 182, 83, 3, 200, 58, 64, 201, 44, 52, 218, 20, 190, 67, 25, 227, 25, 227,
   85, 68, 167, 222, 79, 155, 0, 32, 199, 184, 212, 89, 12, 137, 232, 15, 147, 109, 179, 181,
   148, 162, 205, 36, 57, 237, 63, 180, 95, 199, 126, 23, 210, 65, 58, 172, 30, 143, 235, 42, 4,
   129, 128, 0, 126, 0, 32, 107, 247, 25, 250, 71, 101, 117, 220, 74, 210, 133, 190, 249, 163,
   225, 50, 50, 171, 69, 177, 60, 172, 167, 110, 31, 84, 214, 123, 33, 103, 196, 4, 0, 16, 121,
   181, 180, 180, 170, 42, 6, 99, 107, 253, 145, 147, 183, 104, 192, 16, 239, 224, 116, 177, 46,
   103, 228, 228, 137, 102, 31, 222, 31, 9, 113, 205, 27, 82, 184, 250, 148, 15, 72, 91, 167,
   213, 87, 128, 127, 102, 217, 192, 15, 31, 127, 96, 96, 125, 20, 22, 60, 6, 237, 59, 91, 185,
   190, 62, 138, 213, 76, 38, 215, 21, 243, 128, 22, 100, 148, 131, 119, 129, 209, 184, 27, 217,
   52, 109, 21, 235, 217, 139, 55, 23]

def p256TruePub : List Nat :=
  [0, 86, 0, 35, 0, 11, 0, 6, 0, 114, 0, 0, 0, 16, 0, 16, 0, 3, 0, 16, 0, 32, 238, 203, 106, 234,
   251, 135, 101, 192, 202, 182, 83, 3, 200, 58, 64, 201, 44, 52, 218, 20, 190, 67, 25, 227, 25,
   227, 85, 68, 167, 222, 79, 155, 0, 32, 199, 184, 212, 89, 12, 137, 232, 15, 147, 109, 179,
   181, 148, 162, 205, 36, 57, 237, 63, 180, 95, 199, 126, 23, 210, 65, 58, 172, 30, 143, 235,
   42]

def p256TruePriv : List Nat :=
  [0, 126, 0, 32, 107, 247, 25, 250, 71, 101, 117, 220, 74, 210, 133, 190, 249, 163, 225, 50, 50,
   171, 69, 177, 60, 172, 167, 110, 31, 84, 214, 123, 33, 103, 196, 4, 0, 16, 121, 181, 180, 180,
   170, 42, 6, 99, 107, 253, 145, 147, 183, 104, 192, 16, 239, 224, 116, 177, 46, 103, 228, 228,
   137, 102, 31, 222, 31, 9, 113, 205, 27, 82, 184, 250, 148, 15, 72, 91, 167, 213, 87, 128, 127,
   102, 217, 192, 15, 31, 127, 96, 96, 125, 20, 22, 60, 6, 237, 59, 91, 185, 190, 62, 138, 213,
   76, 38, 215, 21, 243, 128, 22, 100, 148, 131, 119, 129, 209, 184, 27, 217, 52, 109, 21, 235,
   217, 139, 55, 23]

def p256FalseDER : List Nat :=
  [48, 129, 240, 6, 6, 103, 129, 5, 10, 1, 3, 160, 3, 1, 1, 0, 2, 4, 64, 0, 0, 1, 4, 88, 0, 86,
   0, 35, 0, 11, 0, 6, 0, 114, 0, 0, 0, 16, 0, 16, 0, 3, 0, 16, 0, 32, 136, 42, 213, 89, 101, 65,
   16, 147, 227, 145, 155, 46, 90, 117, 90, 231, 116, 142, 36, 159, 162, 48, 112, 167, 83, 24,
   150, 53, 140, 195, 84, 251, 0, 32, 27, 150, 4, 197, 147, 11, 210, 50, 124, 233, 2, 176, 60,
   26, 53, 79, 80, 177, 242, 238, 146, 110, 110, 244, 182, 91, 180, 241, 155, 55, 37, 69, 4, 129,
   128, 0, 126, 0, 32, 213, 94, 130, 188, 70, 145, 57, 95, 24, 193, 113, 247, 135, 166, 42, 125,
   15, 61, 163, 236, 5, 35, 210, 129, 53, 68, 169, 67, 131, 255, 157, 98, 0, 16, 119, 215, 61,
   154, 8, 168, 37, 207, 48, 20, 189, 115, 105, 78, 47, 136, 125, 95, 171, 119, 206, 109, 183,
   217, 23, 242, 252, 160, 186, 203, 191, 171, 183, 62, 15, 42, 120, 108, 223, 120, 245, 114,
   166, 1, 20, 120, 145, 176, 235, 199, 171, 237, 70, 91, 225, 148, 149, 126, 129, 136, 119, 162,
   139, 95, 210, 68, 236, 140, 50, 6, 68, 86, 46, 16, 84, 222, 194, 192, 53, 216, 35, 78, 169,
   87, 82, 16, 3, 154, 118, 40]

def p256FalsePub : List Nat :=
  [0, 86, 0, 35, 0, 11, 0, 6, 0, 114, 0, 0, 0, 16, 0, 16, 0, 3, 0, 16, 0, 32, 136, 42, 213, 89,
   101, 65, 16, 147, 227, 145, 155, 46, 90, 117, 90, 231, 116, 142, 36, 159, 162, 48, 112, 167,
   83, 24, 150, 53, 140, 195, 84, 251, 0, 32, 27, 150, 4, 197, 147, 11, 210, 50, 124, 233, 2,
   176, 60, 26, 53, 79, 80, 177, 242, 238, 146, 110, 110, 244, 182, 91, 180, 241, 155, 55, 37,
   69]

def p256FalsePriv : List Nat :=
  [0, 126, 0, 32, 213, 94, 130, 188, 70, 145, 57, 95, 24, 193, 113, 247, 135, 166, 42, 125, 15,
   61, 163, 236, 5, 35, 210, 129, 53, 68, 169, 67, 131, 255, 157, 98, 0, 16, 119, 215, 61, 154,
   8, 168, 37, 207, 48, 20, 189, 115, 105, 78, 47, 136, 125, 95, 171, 119, 206, 109, 183, 217,
   23, 242, 252, 160, 186, 203, 191, 171, 183, 62, 15, 42, 120, 108, 223, 120, 245, 114, 166, 1,
   20, 120, 145, 176, 235, 199, 171, 237, 70, 91, 225, 148, 149, 126, 129, 136, 119, 162, 139,
   95, 210, 68, 236, 140, 50, 6, 68, 86, 46, 16, 84, 222, 194, 192, 53, 216, 35, 78, 169, 87, 82,
   16, 3, 154, 118, 40]

/-- The record the tests expect for the `p256TSS2PEM` fixture (its tag-0
boolean TRUE is encoded with content octet 0x01). -/
def p256TrueKey : TPMKey :=
  ⟨oidLoadableKey, true, [], [], [], 1073741825, p256TruePub, p256TruePriv⟩

/-- The record the tests expect for the `p256EmptyAuthFalse` fixture (its
tag-0 boolean is explicitly present with content octet 0x00). -/
def p256FalseKey : TPMKey :=
  ⟨oidLoadableKey, false, [], [], [], 1073741825, p256FalsePub, p256FalsePriv⟩

/-- The round-trip scenario of the spec: a record with one nested auth
policy entry named "auth" holding the single assertion
(command code 1, command policy "fake-policy-1"). -/
def specScenarioKey : TPMKey :=
  ⟨oidLoadableKey, true, [], [],
    [⟨[97, 117, 116, 104],
      [⟨1, [102, 97, 107, 101, 45, 112, 111, 108, 105, 99, 121, 45, 49]⟩]⟩],
    1234, [112, 117, 98, 107, 101, 121], [112, 114, 105, 118, 107, 101, 121]⟩

/-- A record whose type is a well-formed object identifier that is not one of
the three registered identifiers. -/
def unregisteredKey : TPMKey :=
  ⟨[2, 23, 133, 10, 1, 99], false, [], [], [], 7, [1], [2]⟩

/-! ## Claims -/

/-- C1: for every TPMKey record whose encoding succeeds — in particular every
record with canonical (non-default) optional fields, including records with
nested AuthPolicy entries holding ordered lists of CommandPolicy assertions —
`ParsePrivateKey (MarshalPrivateKey k)` returns a record equal to `k`,
preserving nested sequence order and content. -/
theorem claim_C1_roundtrip (k : TPMKey) (b : List Nat)
    (h : MarshalPrivateKey (some k) = .ok b) : ParsePrivateKey b = .ok k :=
  ParsePrivateKey_MarshalPrivateKey k b h

/-- Witness for C1 at the spec scenario record with a nested auth policy. -/
theorem claim_C1_roundtrip_witness :
    MarshalPrivateKey (some specScenarioKey) = .ok (tlv 48 (marshalBody specScenarioKey))
      ∧ ParsePrivateKey (tlv 48 (marshalBody specScenarioKey)) = .ok specScenarioKey :=
  ⟨by rfl, claim_C1_roundtrip specScenarioKey _ (by rfl)⟩

/-- C2: the record {type: Loadable, empty_auth: true, parent: 1234,
public_key: "pubkey", private_key: "privkey"} encodes to exactly the byte
sequence 30 22 06 06 67 81 05 0A 01 03 A0 03 01 01 FF 02 02 04 D2 04 06
"pubkey" 04 07 "privkey", and that byte sequence decodes to exactly that
record. -/
theorem claim_C2_exact_encoding :
    MarshalPrivateKey (some exactKeyC2) = .ok exactBytesC2
      ∧ ParsePrivateKey exactBytesC2 = .ok exactKeyC2 :=
  ⟨by rfl, by rfl⟩

/-- C3: a record with `empty_auth = false` and empty policy, secret and auth
policy encodes to the minimal form holding only type, parent, public key and
private key; and in general the encoder emits the context tag 0 exactly when
`empty_auth` is true, and tags 1, 2, 3 exactly when the policy, secret and
auth-policy fields are non-empty. -/
theorem claim_C3_default_elision (k : TPMKey) (hv : validOID k.type = true) :
    (k.emptyAuth = false → k.policy = [] → k.secret = [] → k.authPolicy = [] →
      MarshalPrivateKey (some k) = .ok (tlv 48 (tlv 6 (encOIDContent k.type)
        ++ (tlv 2 (encIntContent k.parent) ++ (tlv 4 k.publicKey ++ tlv 4 k.privateKey)))))
    ∧ (∀ b, MarshalPrivateKey (some k) = .ok b →
        ∃ body, b = tlv 48 body
          ∧ ((160 ∈ topTags body) ↔ k.emptyAuth = true)
          ∧ ((161 ∈ topTags body) ↔ k.policy ≠ [])
          ∧ ((162 ∈ topTags body) ↔ k.secret ≠ [])
          ∧ ((163 ∈ topTags body) ↔ k.authPolicy ≠ [])) := by
  constructor
  · intro h0 h1 h2 h3
    have hbody : marshalBody k = tlv 6 (encOIDContent k.type)
        ++ (tlv 2 (encIntContent k.parent) ++ (tlv 4 k.publicKey ++ tlv 4 k.privateKey)) := by
      rw [marshalBody, h0, h1, h2, h3]
      simp
    simp only [MarshalPrivateKey, if_pos hv, hbody]
  · intro b hb
    simp only [MarshalPrivateKey, if_pos hv, Except.ok.injEq] at hb
    refine ⟨marshalBody k, hb.symm, ?_, ?_, ?_, ?_⟩ <;>
      rw [topTags_marshalBody] <;>
      by_cases h0 : k.emptyAuth <;> by_cases h1 : k.policy = [] <;>
        by_cases h2 : k.secret = [] <;> by_cases h3 : k.authPolicy = [] <;>
        simp [h0, h1, h2, h3]

/-- Witness for C3 at a record with all optional fields at their defaults. -/
theorem claim_C3_default_elision_witness :
    MarshalPrivateKey (some ⟨oidLoadableKey, false, [], [], [], 1234,
        [112, 117, 98, 107, 101, 121], [112, 114, 105, 118, 107, 101, 121]⟩)
      = .ok (tlv 48 (tlv 6 (encOIDContent oidLoadableKey)
        ++ (tlv 2 (encIntContent 1234)
        ++ (tlv 4 [112, 117, 98, 107, 101, 121]
        ++ tlv 4 [112, 114, 105, 118, 107, 101, 121])))) :=
  (claim_C3_default_elision _ (by rfl)).1 rfl rfl rfl rfl

/-- C4: appending any extra byte to an input that decodes successfully makes
`ParsePrivateKey` fail with the TrailingData error. -/
theorem claim_C4_trailing_data (b : List Nat) (k : TPMKey) (x : Nat)
    (h : ParsePrivateKey b = .ok k) :
    ParsePrivateKey (b ++ [x]) = .error .trailingData :=
  ParsePrivateKey_trailing b k x h

/-- Witness for C4: the exact test vector with one byte appended. -/
theorem claim_C4_trailing_data_witness :
    ParsePrivateKey (exactBytesC2 ++ [0]) = .error .trailingData :=
  claim_C4_trailing_data exactBytesC2 exactKeyC2 0 (by rfl)

/-- C5: an encoding that omits the tag-0 boolean entirely (and any subset of
the tag-1/2/3 fields) decodes successfully to a record with
`empty_auth = false` and empty policy / secret / auth-policy values for the
absent fields — never an error and never a null marker. -/
theorem claim_C5_absent_defaults (oid : List Nat) (ps : List TPMPolicy) (sec : List Nat)
    (aps : List TPMAuthPolicy) (par : Int) (pub priv : List Nat)
    (hv : validOID oid = true) :
    ParsePrivateKey (tlv 48 (tlv 6 (encOIDContent oid)
      ++ (if ps = [] then [] else tlv 161 (tlv 48 (encPolicies ps)))
      ++ (if sec = [] then [] else tlv 162 (tlv 4 sec))
      ++ (if aps = [] then [] else tlv 163 (tlv 48 (encAuthPolicies aps)))
      ++ tlv 2 (encIntContent par) ++ tlv 4 pub ++ tlv 4 priv))
      = .ok ⟨oid, false, ps, sec, aps, par, pub, priv⟩ := by
  have hm : MarshalPrivateKey (some ⟨oid, false, ps, sec, aps, par, pub, priv⟩)
      = .ok (tlv 48 (marshalBody ⟨oid, false, ps, sec, aps, par, pub, priv⟩)) := by
    simp [MarshalPrivateKey, hv]
  have h := ParsePrivateKey_MarshalPrivateKey _ _ hm
  have hbody : marshalBody ⟨oid, false, ps, sec, aps, par, pub, priv⟩
      = tlv 6 (encOIDContent oid)
        ++ (if ps = [] then [] else tlv 161 (tlv 48 (encPolicies ps)))
        ++ (if sec = [] then [] else tlv 162 (tlv 4 sec))
        ++ (if aps = [] then [] else tlv 163 (tlv 48 (encAuthPolicies aps)))
        ++ tlv 2 (encIntContent par) ++ tlv 4 pub ++ tlv 4 priv := by
    simp [marshalBody]
  rw [hbody] at h
  exact h

/-- Witness for C5 at the values of the `TestParsePrivateKey_noEmptyAuth`
test: loadable type, parent 123, public key "public key", private key
"private key", all optional fields absent. -/
theorem claim_C5_absent_defaults_witness :
    ParsePrivateKey (tlv 48 (tlv 6 (encOIDContent oidLoadableKey)
      ++ (if ([] : List TPMPolicy) = [] then [] else tlv 161 (tlv 48 (encPolicies [])))
      ++ (if ([] : List Nat) = [] then [] else tlv 162 (tlv 4 []))
      ++ (if ([] : List TPMAuthPolicy) = [] then [] else tlv 163 (tlv 48 (encAuthPolicies [])))
      ++ tlv 2 (encIntContent 123)
      ++ tlv 4 [112, 117, 98, 108, 105, 99, 32, 107, 101, 121]
      ++ tlv 4 [112, 114, 105, 118, 97, 116, 101, 32, 107, 101, 121]))
      = .ok ⟨oidLoadableKey, false, [], [], [], 123,
        [112, 117, 98, 108, 105, 99, 32, 107, 101, 121],
        [112, 114, 105, 118, 97, 116, 101, 32, 107, 101, 121]⟩ :=
  claim_C5_absent_defaults oidLoadableKey [] [] [] 123
    [112, 117, 98, 108, 105, 99, 32, 107, 101, 121]
    [112, 114, 105, 118, 97, 116, 101, 32, 107, 101, 121] (by rfl)

/-- C6: encoding a null record fails with the InvalidArgument error and
returns no bytes (a typed failure, not a crash). -/
theorem claim_C6_nil_record : MarshalPrivateKey none = .error .invalidArgument := rfl

/-- C7: every accepted input decomposes into the outer SEQUENCE holding the
object identifier, the present subset of the optional context tags in the
fixed relative order 0, 1, 2, 3 (each at most once), then parent, public key
and private key; and an input carrying a context tag out of that order or a
duplicated context tag — here, any context tag 0..3 appearing again after all
four — fails with the UnsupportedField error. -/
theorem claim_C7_tag_order :
    (∀ b : List Nat, ∀ k : TPMKey, (∀ x ∈ b, x < 256) → ParsePrivateKey b = .ok k →
      ∃ oc o0 o1 o2 o3 pc uc vc,
        b = tlv 48 (tlv 6 oc ++ (optE 160 o0 ++ (optE 161 o1 ++ (optE 162 o2
          ++ (optE 163 o3 ++ (tlv 2 pc ++ (tlv 4 uc ++ tlv 4 vc))))))))
    ∧ (∀ oid : List Nat, validOID oid = true →
        ∀ ps : List TPMPolicy, ∀ s : List Nat, ∀ aps : List TPMAuthPolicy,
        ∀ j : Nat, j < 4 → ∀ c rest : List Nat,
        ParsePrivateKey (tlv 48 (tlv 6 (encOIDContent oid)
          ++ (tlv 160 (tlv 1 [255]) ++ (tlv 161 (tlv 48 (encPolicies ps))
          ++ (tlv 162 (tlv 4 s) ++ (tlv 163 (tlv 48 (encAuthPolicies aps))
          ++ (tlv (160 + j) c ++ rest)))))))
          = .error .unsupportedField) :=
  ⟨ParsePrivateKey_shape,
   fun oid hv ps s aps j hj c rest => ParsePrivateKey_unsupported oid hv ps s aps j hj c rest⟩

/-- Witness for C7: the exact test vector decomposes in tag order, and a
duplicated tag 0 after the full run is rejected with UnsupportedField. -/
theorem claim_C7_tag_order_witness :
    (∃ oc o0 o1 o2 o3 pc uc vc,
      exactBytesC2 = tlv 48 (tlv 6 oc ++ (optE 160 o0 ++ (optE 161 o1 ++ (optE 162 o2
        ++ (optE 163 o3 ++ (tlv 2 pc ++ (tlv 4 uc ++ tlv 4 vc))))))))
    ∧ ParsePrivateKey (tlv 48 (tlv 6 (encOIDContent oidLoadableKey)
        ++ (tlv 160 (tlv 1 [255]) ++ (tlv 161 (tlv 48 (encPolicies []))
        ++ (tlv 162 (tlv 4 []) ++ (tlv 163 (tlv 48 (encAuthPolicies []))
        ++ (tlv (160 + 0) [] ++ [])))))))
        = .error .unsupportedField :=
  ⟨claim_C7_tag_order.1 exactBytesC2 exactKeyC2 (by decide) (by rfl),
   claim_C7_tag_order.2 oidLoadableKey (by rfl) [] [] [] 0 (by omega) [] []⟩

/-- C8: the decoder copies the leading object identifier into the record
verbatim with no membership check against the registry: decoding an otherwise
well-formed encoding succeeds even when the identifier is none of the three
registered ones, and the identifier passes through unchanged. -/
theorem claim_C8_opaque_oid (k : TPMKey) (b : List Nat)
    (h1 : k.type ≠ oidLoadableKey) (h2 : k.type ≠ oidImportableKey)
    (h3 : k.type ≠ oidSealedKey) (hm : MarshalPrivateKey (some k) = .ok b) :
    ∃ k', ParsePrivateKey b = .ok k' ∧ k'.type = k.type :=
  ⟨k, ParsePrivateKey_MarshalPrivateKey k b hm, rfl⟩

/-- Witness for C8 at a record whose identifier 2.23.133.10.1.99 is
unregistered. -/
theorem claim_C8_opaque_oid_witness :
    ∃ k', ParsePrivateKey (tlv 48 (marshalBody unregisteredKey)) = .ok k'
      ∧ k'.type = [2, 23, 133, 10, 1, 99] :=
  claim_C8_opaque_oid unregisteredKey _ (by decide) (by decide) (by decide) (by rfl)

/-- C9: encoding is idempotently canonical: whenever `MarshalPrivateKey k`
succeeds with bytes `b`, decoding `b` yields a record that re-encodes to
exactly `b`. -/
theorem claim_C9_canonical_reencoding (k : TPMKey) (b : List Nat)
    (h : MarshalPrivateKey (some k) = .ok b) :
    ∃ k', ParsePrivateKey b = .ok k' ∧ MarshalPrivateKey (some k') = .ok b :=
  ⟨k, ParsePrivateKey_MarshalPrivateKey k b h, h⟩

/-- Witness for C9 at the exact-encoding test record. -/
theorem claim_C9_canonical_reencoding_witness :
    ∃ k', ParsePrivateKey exactBytesC2 = .ok k'
      ∧ MarshalPrivateKey (some k') = .ok exactBytesC2 :=
  claim_C9_canonical_reencoding exactKeyC2 exactBytesC2 (by rfl)

/-- C10: the decoder accepts non-canonical encodings of the tag-0 boolean:
the real `p256TSS2PEM` fixture, whose boolean TRUE carries content octet
0x01 rather than DER's 0xFF, decodes to `empty_auth = true`, and the real
`p256EmptyAuthFalse` fixture, whose boolean is explicitly present with
content octet 0x00 (the default FALSE canonical DER would omit), decodes to
`empty_auth = false`; two minimal synthetic inputs pin the same two content
octets. -/
theorem claim_C10_noncanonical_boolean :
    ParsePrivateKey p256TrueDER = .ok p256TrueKey
    ∧ ParsePrivateKey p256FalseDER = .ok p256FalseKey
    ∧ ParsePrivateKey (tlv 48 (tlv 6 (encOIDContent oidLoadableKey)
        ++ (tlv 160 (tlv 1 [1]) ++ (tlv 2 [5] ++ (tlv 4 [9] ++ tlv 4 [8])))))
      = .ok ⟨oidLoadableKey, true, [], [], [], 5, [9], [8]⟩
    ∧ ParsePrivateKey (tlv 48 (tlv 6 (encOIDContent oidLoadableKey)
        ++ (tlv 160 (tlv 1 [0]) ++ (tlv 2 [5] ++ (tlv 4 [9] ++ tlv 4 [8])))))
      = .ok ⟨oidLoadableKey, false, [], [], [], 5, [9], [8]⟩ :=
  ⟨by rfl, by rfl, by rfl, by rfl⟩

end TSS2
